import Mathlib

/-!
Verification of the StrategicInteractionLab game-dynamics core.

Shallow embedding of the payoff-matrix game registry, the mulberry32 PRNG,
the strategy primitives (normalize, expected payoff, categorical sampling),
the three online-learning steppers (Hedge, Regret Matching, Fictitious Play),
the batch evaluator, the self-play trainer rollout, the distributed-training
log aggregation, the training routes' validation, and the arena runner.

Numbers are embedded as rationals (the source computes with IEEE doubles;
all claims checked here are either exact bookkeeping identities, sign/shape
invariants, or determinism statements, none of which depend on rounding).
The transcendental primitives Math.exp / Math.sqrt / Math.tanh have no
rational counterpart; they are passed in as an explicit `NumOps` record so
that every definition stays executable, and theorems that need a property of
the real functions (e.g. exp > 0) take it as a hypothesis on the record.

Everything lives in namespace `SIL` so source-level names such as
`normalize` can be kept without clashing with the ambient library.
-/

namespace SIL

/-- A strategy / weight vector (JS `number[]`). -/
abbrev Vec := List ℚ

/-- A payoff matrix (JS `number[][]`), rows indexed by player A's action. -/
abbrev Mat := List (List ℚ)

/-- Abstract numeric primitives standing for Math.exp, Math.sqrt, Math.tanh. -/
structure NumOps where
  expq : ℚ → ℚ
  sqrtq : ℚ → ℚ
  tanhq : ℚ → ℚ

/-- The 32-bit integer mixing of one mulberry32 call, from
`src/server/src/eval/runner.ts` lines 14–22 (the identical function also
appears in the arena engine and the trainer).  The JS closure keeps a 32-bit
state `t`; every call advances `t += 0x6D2B79F5` and mixes with Math.imul
(low 32 bits of the product), xors and unsigned shifts, all of which read
the state mod 2^32.  Returns (new state, 32-bit output word). -/
def mulberry32Word (t : ℕ) : ℕ × ℕ :=
  let t' := (t + 0x6D2B79F5) % 2 ^ 32
  let x1 := ((t' ^^^ (t' >>> 15)) * (1 ||| t')) % 2 ^ 32
  let m := ((x1 ^^^ (x1 >>> 7)) * (61 ||| x1)) % 2 ^ 32
  let x2 := x1 ^^^ ((x1 + m) % 2 ^ 32)
  let out := x2 ^^^ (x2 >>> 14)
  (t', out)

/-- One mulberry32 draw: the output word divided by 2^32, a rational in [0,1). -/
def mulberry32Next (t : ℕ) : ℕ × ℚ :=
  let (t', out) := mulberry32Word t
  (t', (out : ℚ) / 4294967296)

/-- mulberry32(seed) initializes its state to `seed >>> 0`. -/
def mulberry32Init (seed : ℕ) : ℕ := seed % 2 ^ 32

/-- `normalize` from `src/server/src/eval/runner.ts` lines 8–12 (textually
identical copies live in `eval/algos.ts` lines 3–7 and the arena engine):
sum the weights; if the sum is ≤ 0 map every entry to 1/length, else divide
every entry by the sum. -/
def normalize (v : Vec) : Vec :=
  let s := v.sum
  if s ≤ 0 then v.map (fun _ => 1 / (v.length : ℚ)) else v.map (fun x => x / s)

/-- Loop of `sampleIndex` (runner.ts lines 24–32): walk the vector keeping a
cumulative sum `acc`; return the first index with `r ≤ acc`; if the loop
falls through, return `p.length - 1` (here with truncated ℕ subtraction; the
fall-through with an empty `p`, where JS would yield -1, is unreachable in
the program: strategies are never empty). -/
def sampleIndexGo (r : ℚ) : ℚ → ℕ → Vec → ℕ
  | _, i, [] => i - 1
  | acc, i, x :: xs => if r ≤ acc + x then i else sampleIndexGo r (acc + x) (i + 1) xs

/-- `sampleIndex(p, rng)` (runner.ts lines 24–32): take one PRNG draw and do
inverse-CDF sampling.  Returns the index and the advanced PRNG state. -/
def sampleIndex (p : Vec) (rng : ℕ) : ℕ × ℕ :=
  let (t', r) := mulberry32Next rng
  (sampleIndexGo r 0 0 p, t')

/-- Dot product, the shape of `row.reduce((acc, mij, j) => acc + mij * opp[j], 0)`.
Lengths always agree at every call site in the program. -/
def dot (row opp : Vec) : ℚ := (List.zipWith (· * ·) row opp).sum

/-- `expectedPayoffVector` / the `u` computation inside every stepper:
`u[i] = Σ_j M[i][j] * opp[j]`. -/
def expectedPayoffVector (M : Mat) (opp : Vec) : Vec :=
  M.map (fun row => dot row opp)

/-- `Math.max(1, ...u.map(Math.abs))`, the stabilizing scale of Hedge. -/
def hedgeScale (u : Vec) : ℚ := u.foldl (fun a x => max a (abs x)) 1

/-- `Math.max(...u)` (never called on an empty list in the program; we give
the empty case the value 0). -/
def maxList (u : Vec) : ℚ :=
  match u with
  | [] => 0
  | x :: xs => xs.foldl max x

/-- `oneHot(n, idx)` from the trainer (`Array.from({length:n}, (_,i) => i===idx ? 1 : 0)`). -/
def oneHot (n idx : ℕ) : Vec := (List.range n).map (fun i => if i = idx then 1 else 0)

/-- Bounds-defaulted matrix read `M[i][j]`; every read in the program is in
bounds (actions are sampled from vectors of the matrix's dimensions). -/
def mget (M : Mat) (i j : ℕ) : ℚ := (M.getD i []).getD j 0

/-- The three fixed games. -/
inductive GameId | rps | mp | pd
deriving DecidableEq

/-- Payoff-matrix game definition, as in the GAMES tables of runner.ts,
the arena engine and the trainer (all three tables hold the same data;
the arena table omits zeroSum, which it does not use). -/
structure GameSpec where
  A : Mat
  B : Mat
  actsA : List String
  actsB : List String
  zeroSum : Bool

/-- The GAMES registry (runner.ts lines 34–73, identically in the arena
engine and the trainer). -/
def GAMES : GameId → GameSpec
  | .rps =>
    { A := [[0, -1, 1], [1, 0, -1], [-1, 1, 0]]
      B := [[0, 1, -1], [-1, 0, 1], [1, -1, 0]]
      actsA := ["R", "P", "S"], actsB := ["R", "P", "S"], zeroSum := true }
  | .mp =>
    { A := [[1, -1], [-1, 1]]
      B := [[-1, 1], [1, -1]]
      actsA := ["H", "T"], actsB := ["H", "T"], zeroSum := true }
  | .pd =>
    { A := [[3, 0], [5, 1]]
      B := [[3, 5], [0, 1]]
      actsA := ["C", "D"], actsB := ["C", "D"], zeroSum := false }

/-- The evaluator's algorithm identifiers. -/
inductive Alg | hedge | regret | fp
deriving DecidableEq

/-- The state captured by the `makeStepper` closure in
`src/server/src/eval/algos.ts` lines 17–23: hedge weights `w`, current
strategy `p`, cumulative regrets `R`, opponent history `oppHist` (null until
first FP step), step counter `t`, and the action count `acts`. -/
structure AlgState where
  acts : ℕ
  w : Vec
  p : Vec
  R : Vec
  oppHist : Option Vec
  t : ℕ

/-- Fresh stepper state (`makeStepper` lines 18–22): all-ones weights,
`p = normalize([...w])`, zero regrets, null history, zero counter. -/
def initAlgState (acts : ℕ) : AlgState :=
  { acts := acts
    w := List.replicate acts 1
    p := normalize (List.replicate acts 1)
    R := List.replicate acts 0
    oppHist := none
    t := 0 }

/-- `softmax(u, tau)` from algos.ts lines 9–15: clamp the temperature below
by 1e-4, subtract the max for stability, exponentiate, divide by the sum
(`s || 1` guards a zero sum). -/
def softmaxTemp (ops : NumOps) (tau : ℚ) (u : Vec) : Vec :=
  let t := max (1 / 10 ^ 4) tau
  let m := maxList u
  let exps := u.map (fun x => ops.expq ((x - m) / t))
  let s := exps.sum
  exps.map (fun x => x / (if s = 0 then 1 else s))

/-- `stepHedge` (algos.ts lines 25–32): `w_i ← w_i * exp((η/s)·u_i)` with
`s = max(1, max|u_i|)`, then return `normalize(w)`. -/
def stepHedge (ops : NumOps) (eta : ℚ) (st : AlgState) (opp : Vec) (M : Mat) :
    AlgState × Vec :=
  let u := expectedPayoffVector M opp
  let s := hedgeScale u
  let w' := List.zipWith (fun wi ui => wi * ops.expq (eta / s * ui)) st.w u
  let p' := normalize w'
  ({ st with w := w', p := p' }, p')

/-- `stepRegret` (algos.ts lines 34–47): `R_i ← max(0, R_i + (u_i − ū))` for
`i < acts` with `ū = Σ p_i u_i`; if `Σ R_i ≤ 1e-12` fall back to uniform,
else return `R / Σ R`.  The indexed for-loop is rendered with
bounds-defaulted reads; every read is in bounds at every call site. -/
def stepRegret (st : AlgState) (opp : Vec) (M : Mat) : AlgState × Vec :=
  let u := expectedPayoffVector M opp
  let ubar := dot st.p u
  let R' := (List.range st.acts).map (fun i => max 0 (st.R.getD i 0 + (u.getD i 0 - ubar)))
  let sumPos := R'.sum
  let p' := if sumPos ≤ 1 / 10 ^ 12 then List.replicate st.acts (1 / (st.acts : ℚ))
            else R'.map (fun r => r / sumPos)
  ({ st with R := R', p := p' }, p')

/-- The lazy (re)initialization of the FP opponent history (algos.ts line 50):
zeros when null or when the length does not match the incoming vector. -/
def fpHist0 (oppHist : Option Vec) (n : ℕ) : Vec :=
  match oppHist with
  | none => List.replicate n 0
  | some h => if h.length = n then h else List.replicate n 0

/-- The empirical opponent frequency `q = oppHist / t` (algos.ts line 53). -/
def fpQ (hist : Vec) (t : ℕ) : Vec := hist.map (fun c => c / (t : ℚ))

/-- `stepFP` (algos.ts lines 49–60): accumulate the opponent strategy, form
the empirical frequency `q`, and soft-best-respond with temperature
`τ = 1 / max(η, 1e-3)`. -/
def stepFP (ops : NumOps) (eta : ℚ) (st : AlgState) (opp : Vec) (M : Mat) :
    AlgState × Vec :=
  let hist0 := fpHist0 st.oppHist opp.length
  let t' := st.t + 1
  let hist' := List.zipWith (· + ·) hist0 opp
  let q := fpQ hist' t'
  let u := expectedPayoffVector M q
  let tau := 1 / max eta (1 / 1000)
  let p' := softmaxTemp ops tau u
  ({ st with oppHist := some hist', t := t', p := p' }, p')

/-- `makeStepper`'s dispatch on the algorithm name (algos.ts lines 62–64). -/
def stepAlg (ops : NumOps) (alg : Alg) (eta : ℚ) (st : AlgState) (opp : Vec) (M : Mat) :
    AlgState × Vec :=
  match alg with
  | .hedge => stepHedge ops eta st opp M
  | .regret => stepRegret st opp M
  | .fp => stepFP ops eta st opp M

/-- `makeStepper`'s learning rate: `eta = lr ?? 0.5`. -/
def etaOf (lr : Option ℚ) : ℚ := lr.getD (1 / 2)

/-- The configuration of `runEval` (runner.ts lines 75–85): the run
identifier plus `{game, algA, algB, seeds, episodes, stepsPerEp, lr}`. -/
structure EvalParams where
  run_id : ℕ
  game : GameId
  algA : Alg
  algB : Alg
  seeds : List ℕ
  episodes : ℕ
  stepsPerEp : ℕ
  lr : Option ℚ

/-- One metric row pushed by `runEval` (runner.ts line 134). -/
structure MetricRow where
  winA : Option ℚ
  avgRewardA : ℚ
  coopRate : Option ℚ
  l2Dist : Option ℚ
  seed : ℕ
  ep : ℕ
deriving DecidableEq

/-- The mutable episode-local state of `runEval`'s inner loop
(runner.ts lines 94–110): strategies, stepper states, the shared PRNG,
the cooperation counter and A's reward accumulator. -/
structure EpState where
  pA : Vec
  pB : Vec
  stA : AlgState
  stB : AlgState
  rng : ℕ
  coopCount : ℕ
  rewardSumA : ℚ

/-- One iteration of `runEval`'s step loop (runner.ts lines 102–110):
`pA = stepA(pB, A)`, then `pB = stepB(pA, B)` with the fresh `pA`, sample
A's action then B's from the shared PRNG, accumulate A's reward, and count
cooperation (action 0) when the game is Prisoner's Dilemma. -/
def evalStep (ops : NumOps) (game : GameId) (algA algB : Alg) (eta : ℚ)
    (st : EpState) : EpState :=
  let spec := GAMES game
  let (stA', pA') := stepAlg ops algA eta st.stA st.pB spec.A
  let (stB', pB') := stepAlg ops algB eta st.stB pA' spec.B
  let (a, rng1) := sampleIndex pA' st.rng
  let (b, rng2) := sampleIndex pB' rng1
  let rA := mget spec.A a b
  { pA := pA', pB := pB', stA := stA', stB := stB', rng := rng2
    coopCount := if game = .pd ∧ a = 0 then st.coopCount + 1 else st.coopCount
    rewardSumA := st.rewardSumA + rA }

/-- The per-episode reset and step loop (runner.ts lines 96–110): both
strategies uniform, fresh steppers (`nA = A.length`, `nB = A[0].length`),
then `stepsPerEp` iterations of `evalStep`. -/
def runEpisode (ops : NumOps) (game : GameId) (algA algB : Alg) (eta : ℚ)
    (stepsPerEp : ℕ) (rng0 : ℕ) : EpState :=
  let spec := GAMES game
  let nA := spec.A.length
  let nB := (spec.A.getD 0 []).length
  let init : EpState :=
    { pA := List.replicate nA (1 / (nA : ℚ))
      pB := List.replicate nB (1 / (nB : ℚ))
      stA := initAlgState nA
      stB := initAlgState nB
      rng := rng0, coopCount := 0, rewardSumA := 0 }
  (List.range stepsPerEp).foldl (fun s _ => evalStep ops game algA algB eta s) init

/-- The end-of-episode metric computation (runner.ts lines 112–135):
`avgRewardA = rewardSum / stepsPerEp`; zero-sum games get
`winA = (avgRewardA+1)/2` and the L2 distance of A's final strategy from
uniform, Prisoner's Dilemma gets the cooperation rate.  Returns the metric
row and the PRNG state carried into the next episode. -/
def episodeRow (ops : NumOps) (game : GameId) (algA algB : Alg) (eta : ℚ)
    (stepsPerEp seed ep rng0 : ℕ) : MetricRow × ℕ :=
  let spec := GAMES game
  let nA := spec.A.length
  let uniformA : Vec := List.replicate nA (1 / (nA : ℚ))
  let st := runEpisode ops game algA algB eta stepsPerEp rng0
  let avgRewardA := st.rewardSumA / (stepsPerEp : ℚ)
  if spec.zeroSum then
    let d2 := (List.zipWith (fun pi ui => (pi - ui) ^ 2) st.pA uniformA).sum
    ({ winA := some ((avgRewardA + 1) / 2), avgRewardA := avgRewardA
       coopRate := none, l2Dist := some (ops.sqrtq d2), seed := seed, ep := ep }, st.rng)
  else
    ({ winA := none, avgRewardA := avgRewardA
       coopRate := some ((st.coopCount : ℚ) / (stepsPerEp : ℚ)), l2Dist := none
       seed := seed, ep := ep }, st.rng)

/-- The per-seed episode loop (runner.ts lines 93–136): one fresh
`mulberry32(seed)` stream shared by all episodes of this seed, episodes
numbered 1..episodes, rows appended in order. -/
def seedRows (ops : NumOps) (game : GameId) (algA algB : Alg) (eta : ℚ)
    (episodes stepsPerEp seed : ℕ) : List MetricRow :=
  let fin := (List.range episodes).foldl
    (fun (acc : ℕ × List MetricRow) epIdx =>
      let (row, rng') := episodeRow ops game algA algB eta stepsPerEp seed (epIdx + 1) acc.1
      (rng', acc.2 ++ [row]))
    (mulberry32Init seed, [])
  fin.2

/-- The metric rows produced by `runEval` (runner.ts lines 78–136): the
seed loop around the episode loop.  The database inserts write exactly
these rows and the summary derived from them; `run_id` is threaded to the
inserts but enters no computation. -/
def runEvalMetrics (ops : NumOps) (p : EvalParams) : List MetricRow :=
  p.seeds.flatMap (fun seed =>
    seedRows ops p.game p.algA p.algB (etaOf p.lr) p.episodes p.stepsPerEp seed)

/-- A two-layer policy network of the self-play trainer. -/
structure Policy where
  W1 : Mat
  b1 : Vec
  W2 : Mat
  b2 : Vec

/-- The trainer's `softmax(logits)` (no temperature): subtract the max,
exponentiate, divide by the sum with `s || 1` guarding zero. -/
def rlSoftmax (ops : NumOps) (logits : Vec) : Vec :=
  let m := maxList logits
  let exps := logits.map (fun x => ops.expq (x - m))
  let s := exps.sum
  let d := if s = 0 then 1 else s
  exps.map (fun x => x / d)

/-- The result of `forward(pol, x)`: tanh hidden layer and softmax output. -/
structure ForwardOut where
  hidden : Vec
  probs : Vec

/-- `forward` from the trainer: `hidden_i = tanh(b1_i + W1_i · x)`,
`logits_i = b2_i + W2_i · hidden`, `probs = softmax(logits)`. -/
def forward (ops : NumOps) (pol : Policy) (x : Vec) : ForwardOut :=
  let hidden := List.zipWith (fun row bi => ops.tanhq (dot row x + bi)) pol.W1 pol.b1
  let logits := List.zipWith (fun row bi => dot row hidden + bi) pol.W2 pol.b2
  { hidden := hidden, probs := rlSoftmax ops logits }

/-- One recorded rollout step (the trainer's `StepCache`). -/
structure StepCache where
  x : Vec
  hidden : Vec
  probs : Vec
  action : ℕ
  reward : ℚ
deriving DecidableEq

/-- Placeholder cache used only as the default of bounds-defaulted reads. -/
def cacheDefault : StepCache := { x := [], hidden := [], probs := [], action := 0, reward := 0 }

/-- The observation built at every rollout step of `trainSelfPlay`:
`[1, ...oneHot(inputDim-1, lastOpp).slice(0, inputDim-1)]` — a bias entry
followed by the one-hot of the opponent's last action (the slice is the
identity, as the one-hot already has length `inputDim-1`). -/
def obsVec (inputDim lastOpp : ℕ) : Vec :=
  1 :: (oneHot (inputDim - 1) lastOpp).take (inputDim - 1)

/-- The episode-local mutable state of `trainSelfPlay`'s rollout loop:
`lastA`/`lastB` start at 0 at every episode, the recorded step caches, the
reward accumulators and the shared PRNG. -/
structure RolloutState where
  lastA : ℕ
  lastB : ℕ
  stepsA : List StepCache
  stepsB : List StepCache
  rewardSumA : ℚ
  rewardSumB : ℚ
  rng : ℕ
deriving DecidableEq

/-- One iteration of `trainSelfPlay`'s rollout loop: build both
observations from the opponents' last actions, forward both policies,
sample both actions from the shared PRNG (A first), read the payoffs,
record both step caches and update `lastA`/`lastB`. -/
def trainStep (ops : NumOps) (spec : GameSpec) (polA polB : Policy)
    (inputDim : ℕ) (st : RolloutState) : RolloutState :=
  let xA := obsVec inputDim st.lastB
  let xB := obsVec inputDim st.lastA
  let fa := forward ops polA xA
  let fb := forward ops polB xB
  let (a, rng1) := sampleIndex fa.probs st.rng
  let (b, rng2) := sampleIndex fb.probs rng1
  let rA := mget spec.A a b
  let rB := mget spec.B a b
  { lastA := a, lastB := b
    stepsA := st.stepsA ++ [{ x := xA, hidden := fa.hidden, probs := fa.probs, action := a, reward := rA }]
    stepsB := st.stepsB ++ [{ x := xB, hidden := fb.hidden, probs := fb.probs, action := b, reward := rB }]
    rewardSumA := st.rewardSumA + rA
    rewardSumB := st.rewardSumB + rB
    rng := rng2 }

/-- One full episode rollout of `trainSelfPlay`: `lastA = lastB = 0`, empty
caches and accumulators, then `stepsPerEp` iterations of `trainStep`. -/
def episodeRollout (ops : NumOps) (spec : GameSpec) (polA polB : Policy)
    (inputDim stepsPerEp rng0 : ℕ) : RolloutState :=
  (List.range stepsPerEp).foldl (fun s _ => trainStep ops spec polA polB inputDim s)
    { lastA := 0, lastB := 0, stepsA := [], stepsB := [], rewardSumA := 0
      rewardSumB := 0, rng := rng0 }

/-- One entry of the trainer's log (`TrainLogs`). -/
structure TrainLogEntry where
  ep : ℕ
  avgRewardA : ℚ
  avgRewardB : ℚ
  winA : Option ℚ
deriving DecidableEq

/-- Placeholder entry used only as the default of bounds-defaulted reads. -/
def logEntryDefault : TrainLogEntry := { ep := 0, avgRewardA := 0, avgRewardB := 0, winA := none }

/-- The per-index accumulator of `trainSelfPlayDistributed`'s aggregation
loop: `sumA`, `sumB`, `sumWin`, `countWin`. -/
structure AggAcc where
  sumA : ℚ
  sumB : ℚ
  sumWin : ℚ
  countWin : ℕ
deriving DecidableEq

/-- The body of `for (const r of runs)` in the aggregation loop:
`sumA += log?.avgRewardA ?? 0`, `sumB += log?.avgRewardB ?? 0`, and when
`log?.winA != null` also `sumWin += log.winA; countWin += 1`. -/
def aggStep (idx : ℕ) (acc : AggAcc) (r : List TrainLogEntry) : AggAcc :=
  let log? := r.get? idx
  let acc' : AggAcc :=
    { acc with
      sumA := acc.sumA + ((log?.map (fun l => l.avgRewardA)).getD 0)
      sumB := acc.sumB + ((log?.map (fun l => l.avgRewardB)).getD 0) }
  match log?.bind (fun l => l.winA) with
  | some w => { acc' with sumWin := acc'.sumWin + w, countWin := acc'.countWin + 1 }
  | none => acc'

/-- One aggregated entry (`aggregatedLogs.push` in
`trainSelfPlayDistributed`): episode `idx+1`, the reward sums divided by
the worker count, and `winA = sumWin/countWin` when any worker reported. -/
def aggEntry (workers idx : ℕ) (runs : List (List TrainLogEntry)) : TrainLogEntry :=
  let acc := runs.foldl (aggStep idx) { sumA := 0, sumB := 0, sumWin := 0, countWin := 0 }
  { ep := idx + 1
    avgRewardA := acc.sumA / (workers : ℚ)
    avgRewardB := acc.sumB / (workers : ℚ)
    winA := if acc.countWin ≠ 0 then some (acc.sumWin / (acc.countWin : ℚ)) else none }

/-- The aggregation of `trainSelfPlayDistributed`: iterate over
`episodes = runs[0]?.logs.length || cfg.episodes` indices (the `||` falls
back when the first log is absent or empty) and build one aggregated entry
per index.  `workers` is the clamped worker count; the source builds
exactly `workers` runs. -/
def aggregateLogs (workers cfgEpisodes : ℕ) (runs : List (List TrainLogEntry)) :
    List TrainLogEntry :=
  let firstLen := match runs.head? with
    | some l => l.length
    | none => 0
  let episodes := if firstLen = 0 then cfgEpisodes else firstLen
  (List.range episodes).map (fun idx => aggEntry workers idx runs)

/-- The game-id check of the training routes:
`['rps','mp','pd'].includes(String(cfg.game))` (a falsy/empty game also
fails this check). -/
def validGame (g : String) : Bool := g = "rps" || g = "mp" || g = "pd"

/-- The JS `x || d` defaulting used by the routes on numeric fields
(`Number(cfg.episodes) || 50` etc.): 0 (and NaN, unrepresentable here)
falls back to the default. -/
def jsOrDefault (x d : ℤ) : ℤ := if x = 0 then d else x

/-- The effective configuration a distributed training run executes with. -/
structure DistTrainEff where
  episodes : ℤ
  stepsPerEp : ℤ
  workers : ℤ
deriving DecidableEq

/-- The validation and defaulting pipeline of POST `/train/distributed`
combined with the clamping the trainer itself applies: the route rejects
(`none`, HTTP 400) exactly when the game id is unknown; otherwise it
defaults `episodes`/`stepsPerEp` through `x || d`, and the simulation runs
with `trainSelfPlayDistributed`'s `workers = max(1, min(16, workers))` and
`trainSelfPlay`'s `episodes = max(1, episodes)`,
`stepsPerEp = max(10, stepsPerEp)`.  No numeric range check rejects. -/
def distributedRoute (game : String) (episodes stepsPerEp workers : ℤ) :
    Option DistTrainEff :=
  if validGame game then
    let e := jsOrDefault episodes 50
    let s := jsOrDefault stepsPerEp 200
    some { episodes := max 1 e, stepsPerEp := max 10 s
           workers := max 1 (min 16 workers) }
  else none

/-- The state owned by one arena run (`createRunner` in the arena engine):
hedge weights and strategies for both players, the joint-action count
matrix, iteration counter, last actions and rewards, the PRNG state, and
the scheduler handle (`timer`, null until `start`).  `nextTimerId` models
the runtime's supply of fresh interval handles, so that "no new timer was
created" is visible as state equality. -/
structure ArenaState where
  wA : Vec
  wB : Vec
  pA : Vec
  pB : Vec
  jointCounts : List (List ℕ)
  iter : ℕ
  lastActionA : ℕ
  lastActionB : ℕ
  rewardA : ℚ
  rewardB : ℚ
  rng : ℕ
  timer : Option ℕ
  nextTimerId : ℕ
deriving DecidableEq

/-- `jointCounts[a][b] += 1`. -/
def bumpCount (m : List (List ℕ)) (i j : ℕ) : List (List ℕ) :=
  m.set i ((m.getD i []).set j ((m.getD i []).getD j 0 + 1))

/-- The initial run state built by `createRunner`: all-ones weights,
normalized strategies, zero counts, null timer. -/
def initArena (game : GameId) (seed : ℕ) : ArenaState :=
  let spec := GAMES game
  let nA := spec.actsA.length
  let nB := spec.actsB.length
  { wA := List.replicate nA 1, wB := List.replicate nB 1
    pA := normalize (List.replicate nA 1), pB := normalize (List.replicate nB 1)
    jointCounts := List.replicate nA (List.replicate nB 0)
    iter := 0, lastActionA := 0, lastActionB := 0, rewardA := 0, rewardB := 0
    rng := mulberry32Init seed, timer := none, nextTimerId := 0 }

/-- `stepOnce` of the arena engine (store.ts's companion engine, lines
168–184): the Hedge update for both players, then sample both actions,
record rewards, bump the joint count and the iteration counter. -/
def stepOnce (ops : NumOps) (game : GameId) (lr : ℚ) (s : ArenaState) : ArenaState :=
  let spec := GAMES game
  let uA := expectedPayoffVector spec.A s.pB
  let uB := expectedPayoffVector spec.B s.pA
  let sA := hedgeScale uA
  let sB := hedgeScale uB
  let wA' := List.zipWith (fun w u => w * ops.expq (lr / sA * u)) s.wA uA
  let wB' := List.zipWith (fun w u => w * ops.expq (lr / sB * u)) s.wB uB
  let pA' := normalize wA'
  let pB' := normalize wB'
  let (a, rng1) := sampleIndex pA' s.rng
  let (b, rng2) := sampleIndex pB' rng1
  { s with
    wA := wA', wB := wB', pA := pA', pB := pB'
    lastActionA := a, lastActionB := b
    rewardA := mget spec.A a b, rewardB := mget spec.B a b
    jointCounts := bumpCount s.jointCounts a b
    iter := s.iter + 1, rng := rng2 }

/-- The arena state after `n` simulation steps from a fresh run. -/
def arenaIter (ops : NumOps) (game : GameId) (lr : ℚ) (seed : ℕ) : ℕ → ArenaState
  | 0 => initArena game seed
  | n + 1 => stepOnce ops game lr (arenaIter ops game lr seed n)

/-- `Runner.start` (engine lines 201–207): if a timer already exists,
return immediately; otherwise install a fresh interval handle.  Ticking
itself is a separate transition, enabled only while `timer` is set. -/
def startArena (s : ArenaState) : ArenaState :=
  match s.timer with
  | some _ => s
  | none => { s with timer := some s.nextTimerId, nextTimerId := s.nextTimerId + 1 }

/-- A Regret-Matching stepper iterated over a list of
(opponent strategy, payoff matrix) inputs from a fresh state. -/
def regretIter (acts : ℕ) (inputs : List (Vec × Mat)) : AlgState :=
  inputs.foldl (fun st q => (stepRegret st q.1 q.2).1) (initAlgState acts)

/-- A Fictitious-Play stepper iterated over a list of inputs from a fresh state. -/
def fpIter (ops : NumOps) (eta : ℚ) (acts : ℕ) (inputs : List (Vec × Mat)) : AlgState :=
  inputs.foldl (fun st q => (stepFP ops eta st q.1 q.2).1) (initAlgState acts)

/-- A Hedge stepper iterated over a list of inputs from a fresh state. -/
def hedgeIter (ops : NumOps) (eta : ℚ) (acts : ℕ) (inputs : List (Vec × Mat)) : AlgState :=
  inputs.foldl (fun st q => (stepHedge ops eta st q.1 q.2).1) (initAlgState acts)

/-- Componentwise sum of a list of length-`n` vectors (the FP history). -/
def vecSum (n : ℕ) (vs : List Vec) : Vec :=
  vs.foldl (fun a v => List.zipWith (· + ·) a v) (List.replicate n 0)

/-- Componentwise arithmetic mean of a list of length-`n` vectors. -/
def vecMean (n : ℕ) (vs : List Vec) : Vec :=
  (vecSum n vs).map (fun c => c / (vs.length : ℚ))

/-- A concrete `NumOps` used to instantiate witnesses (every abstract
transcendental returns 1, which is strictly positive). -/
def opsOne : NumOps := { expq := fun _ => 1, sqrtq := fun _ => 1, tanhq := fun _ => 1 }

/-- A concrete zero policy (hidden size 1, three actions, input size 4)
used to instantiate the trainer rollout on a concrete input. -/
def polZero : Policy :=
  { W1 := [[0, 0, 0, 0]], b1 := [0], W2 := [[0], [0], [0]], b2 := [0, 0, 0] }

/-- A concrete evaluator configuration. -/
def evalParamsA : EvalParams :=
  { run_id := 1, game := .pd, algA := .regret, algB := .hedge
    seeds := [7], episodes := 1, stepsPerEp := 2, lr := none }

/-- The same configuration under a different run identifier. -/
def evalParamsB : EvalParams :=
  { run_id := 2, game := .pd, algA := .regret, algB := .hedge
    seeds := [7], episodes := 1, stepsPerEp := 2, lr := none }

/-- A concrete arena run that is already running (timer installed). -/
def arenaRunning : ArenaState := { initArena .rps 1234 with timer := some 0 }

/-- Two concrete one-episode worker logs (one reports `winA`, one does not). -/
def aggRunsW : List (List TrainLogEntry) :=
  [[{ ep := 1, avgRewardA := 1, avgRewardB := 2, winA := some 1 }],
   [{ ep := 1, avgRewardA := 3, avgRewardB := 4, winA := none }]]

example : normalize [0, 0] = [1 / 2, 1 / 2] := by norm_num [normalize]
example : normalize [1, 3] = [1 / 4, 3 / 4] := by norm_num [normalize]
example : sampleIndexGo (1 / 2) 0 0 [0, 1] = 1 := by norm_num [sampleIndexGo]
example : expectedPayoffVector [[1, 2], [3, 4]] [1, 0] = [1, 3] := by
  norm_num [expectedPayoffVector, dot]
example : mulberry32Word 2463401483 = (0, 0) := by decide

/-! ## Helper lemmas -/

theorem sum_map_div (l : List ℚ) (s : ℚ) : (l.map (fun x => x / s)).sum = l.sum / s := by
  induction l with
  | nil => simp
  | cons a t ih => simp [ih, add_div]

theorem sum_map_mul_right (l : List ℚ) (c : ℚ) : (l.map (fun x => x * c)).sum = l.sum * c := by
  induction l with
  | nil => simp
  | cons a t ih => simp [ih, add_mul]

/-! ## C10: Runner.start is idempotent -/

/-- C10: `Runner.start` is idempotent — if the run already has a scheduler
timer, `start` returns immediately and leaves the state (including the
fresh-handle supply) unchanged, so `start` after `start` equals a single
`start`. -/
theorem start_idempotent (s : ArenaState) :
    startArena (startArena s) = startArena s ∧
    (s.timer.isSome = true → startArena s = s) := by
  constructor
  · cases h : s.timer with
    | some t => simp [startArena, h]
    | none => simp [startArena, h]
  · intro hsome
    cases h : s.timer with
    | some t => simp [startArena, h]
    | none => rw [h] at hsome; simp at hsome

/-- Witness for C10 at a concrete already-running arena state. -/
theorem start_idempotent_witness :
    startArena (startArena arenaRunning) = startArena arenaRunning ∧
      startArena arenaRunning = arenaRunning :=
  ⟨(start_idempotent arenaRunning).1, (start_idempotent arenaRunning).2 rfl⟩

/-! ## C2: request validation of the distributed-training route -/

/-- Counterexample for C2: a request with non-positive episode and step
counts and a worker count of 20 (outside 1..16) is NOT rejected — the route
accepts it and the simulation runs with the values clamped to
episodes 1, stepsPerEp 10, workers 16. -/
theorem distributedRoute_accepts_invalid :
    distributedRoute "rps" (-5) (-3) 20 =
      some { episodes := 1, stepsPerEp := 10, workers := 16 } ∧
    distributedRoute "rps" (-5) (-3) 20 ≠ none := by
  constructor
  · decide
  · decide

/-- C2 (amended): the distributed-training route rejects exactly the
unknown game ids; non-positive episode/step counts and out-of-range worker
counts are not rejected but clamped — every accepted request runs with
episodes ≥ 1, stepsPerEp ≥ 10 and workers in 1..16. -/
theorem distributedRoute_clamps (game : String) (episodes stepsPerEp workers : ℤ) :
    (distributedRoute game episodes stepsPerEp workers = none ↔ validGame game = false) ∧
    (∀ eff, distributedRoute game episodes stepsPerEp workers = some eff →
      1 ≤ eff.episodes ∧ 10 ≤ eff.stepsPerEp ∧ 1 ≤ eff.workers ∧ eff.workers ≤ 16) := by
  unfold distributedRoute
  by_cases h : validGame game
  · refine ⟨by simp [h], ?_⟩
    intro eff heff
    simp only [h, if_true, Option.some.injEq] at heff
    subst heff
    refine ⟨le_max_left 1 _, le_max_left 10 _, le_max_left 1 _, ?_⟩
    exact max_le (by norm_num) (min_le_left 16 workers)
  · simp [h]

/-- Witness for C2's amended theorem at the concrete invalid request. -/
theorem distributedRoute_clamps_witness :
    1 ≤ (DistTrainEff.mk 1 10 16).episodes ∧ 10 ≤ (DistTrainEff.mk 1 10 16).stepsPerEp ∧
      1 ≤ (DistTrainEff.mk 1 10 16).workers ∧ (DistTrainEff.mk 1 10 16).workers ≤ 16 :=
  (distributedRoute_clamps "rps" (-5) (-3) 20).2 (DistTrainEff.mk 1 10 16) (by decide)

/-! ## C5: normalize -/

/-- C5: on non-negative weights, `normalize` returns a non-negative vector
summing exactly to 1 (hence within the 1e-9 tolerance) when the input sum
is positive, and returns exactly the uniform distribution over the same
length when the sum is ≤ 0 — no division by zero ever happens. -/
theorem normalize_spec (v : Vec) (hv : ∀ x ∈ v, 0 ≤ x) :
    (0 < v.sum →
      (∀ x ∈ normalize v, 0 ≤ x) ∧ (normalize v).sum = 1 ∧
        |(normalize v).sum - 1| ≤ 1 / 10 ^ 9) ∧
    (v.sum ≤ 0 → normalize v = List.replicate v.length (1 / (v.length : ℚ))) := by
  constructor
  · intro hs
    have hne : ¬ v.sum ≤ 0 := not_le.mpr hs
    have hform : normalize v = v.map (fun x => x / v.sum) := by
      unfold normalize
      simp [hne]
    have hsum : (normalize v).sum = 1 := by
      rw [hform, sum_map_div, div_self (ne_of_gt hs)]
    refine ⟨?_, hsum, ?_⟩
    · intro x hx
      rw [hform] at hx
      obtain ⟨y, hy, rfl⟩ := List.mem_map.mp hx
      exact div_nonneg (hv y hy) (le_of_lt hs)
    · rw [hsum]; norm_num
  · intro hs
    unfold normalize
    simp only [hs, if_pos]
    exact List.map_const' v _

/-- Witness for C5 at the concrete inputs [1,3] (positive sum) and [0,0]
(degenerate sum). -/
theorem normalize_spec_witness :
    (normalize [1, 3]).sum = 1 ∧
      normalize [0, 0] = List.replicate ([0, 0] : Vec).length (1 / (([0, 0] : Vec).length : ℚ)) :=
  ⟨((normalize_spec [1, 3] (by norm_num)).1 (by norm_num)).2.1,
   (normalize_spec [0, 0] (by norm_num)).2 (by norm_num)⟩

/-! ## C1: batch-evaluator determinism -/

/-- C1: `runEval` is deterministic in its configuration — two calls whose
`{game, algA, algB, seeds, episodes, stepsPerEp, lr}` agree (the `run_id`
may differ) produce identical metric rows; moreover the rows of a run are
exactly the concatenation of the rows of per-seed reruns with the same
configuration, so reusing a seed with the same configuration reproduces
that seed's rows. -/
theorem runEval_deterministic (ops : NumOps) (p₁ p₂ : EvalParams)
    (hg : p₁.game = p₂.game) (ha : p₁.algA = p₂.algA) (hb : p₁.algB = p₂.algB)
    (hs : p₁.seeds = p₂.seeds) (he : p₁.episodes = p₂.episodes)
    (hst : p₁.stepsPerEp = p₂.stepsPerEp) (hlr : p₁.lr = p₂.lr) :
    runEvalMetrics ops p₁ = runEvalMetrics ops p₂ ∧
    runEvalMetrics ops p₁ =
      p₁.seeds.flatMap (fun s => runEvalMetrics ops { p₁ with seeds := [s] }) := by
  obtain ⟨r₁, g₁, a₁, b₁, s₁, e₁, t₁, l₁⟩ := p₁
  obtain ⟨r₂, g₂, a₂, b₂, s₂, e₂, t₂, l₂⟩ := p₂
  simp only at hg ha hb hs he hst hlr
  subst hg; subst ha; subst hb; subst hs; subst he; subst hst; subst hlr
  exact ⟨rfl, by simp [runEvalMetrics]⟩

/-- Witness for C1: two concrete configurations differing only in run_id. -/
theorem runEval_deterministic_witness :
    runEvalMetrics opsOne evalParamsA = runEvalMetrics opsOne evalParamsB ∧
    runEvalMetrics opsOne evalParamsA =
      evalParamsA.seeds.flatMap
        (fun s => runEvalMetrics opsOne { evalParamsA with seeds := [s] }) :=
  runEval_deterministic opsOne evalParamsA evalParamsB rfl rfl rfl rfl rfl rfl rfl

/-! ## C4: sampleIndex on one-hot strategies -/

theorem mulberry32Word_lt (t : ℕ) : (mulberry32Word t).2 < 2 ^ 32 := by
  have h32 : (0 : ℕ) < 2 ^ 32 := by norm_num
  have hshift : ∀ x k : ℕ, x < 2 ^ 32 → x ^^^ (x >>> k) < 2 ^ 32 := by
    intro x k hx
    refine Nat.xor_lt_two_pow hx ?_
    rw [Nat.shiftRight_eq_div_pow]
    exact lt_of_le_of_lt (Nat.div_le_self _ _) hx
  simp only [mulberry32Word]
  exact hshift _ 14 (Nat.xor_lt_two_pow (Nat.mod_lt _ h32) (Nat.mod_lt _ h32))

theorem mulberry32Next_nonneg (t : ℕ) : 0 ≤ (mulberry32Next t).2 := by
  unfold mulberry32Next
  positivity

theorem mulberry32Next_lt_one (t : ℕ) : (mulberry32Next t).2 < 1 := by
  have h := mulberry32Word_lt t
  unfold mulberry32Next
  rw [div_lt_one (by norm_num)]
  calc ((mulberry32Word t).2 : ℚ) < ((2 ^ 32 : ℕ) : ℚ) := by exact_mod_cast h
    _ = 4294967296 := by norm_num

/-- `sampleIndexGo` with a strictly positive draw skips a block of zeros and
stops at the following 1. -/
theorem sampleIndexGo_zeros_one (r : ℚ) (hrpos : 0 < r) (hr1 : r ≤ 1) (rest : Vec) :
    ∀ (k base : ℕ), sampleIndexGo r 0 base (List.replicate k 0 ++ 1 :: rest) = base + k := by
  intro k
  induction k with
  | zero =>
    intro base
    simp only [List.replicate, List.nil_append, sampleIndexGo]
    rw [if_pos (by linarith)]
    omega
  | succ k ih =>
    intro base
    simp only [List.replicate_succ, List.cons_append, sampleIndexGo, List.append_eq]
    rw [if_neg (by linarith), add_zero, ih (base + 1)]
    omega

/-- The one-hot vector of index `i < n` is `i` zeros, a 1, then zeros. -/
theorem oneHot_eq_replicate (n i : ℕ) (h : i < n) :
    oneHot n i = List.replicate i 0 ++ 1 :: List.replicate (n - i - 1) 0 := by
  unfold oneHot
  obtain ⟨k, rfl⟩ : ∃ k, n = i + (k + 1) := ⟨n - i - 1, by omega⟩
  have hk2 : i + (k + 1) - i - 1 = k := by omega
  rw [hk2]
  have hsplit : List.range (i + (k + 1)) = List.range' 0 i ++ i :: List.range' (i + 1) k := by
    have h2 := List.range'_append 0 i (k + 1) 1
    simp only [Nat.one_mul, Nat.zero_add] at h2
    have h4 : i + (k + 1) = (k + 1) + i := by omega
    rw [List.range_eq_range', h4, ← h2, List.range'_succ]
  rw [hsplit, List.map_append, List.map_cons, if_pos rfl]
  have hlow : (List.range' 0 i).map (fun j => if j = i then (1 : ℚ) else 0) =
      List.replicate i 0 := by
    apply List.eq_replicate_iff.mpr
    refine ⟨by simp, ?_⟩
    intro b hb
    obtain ⟨x, hx, rfl⟩ := List.mem_map.mp hb
    have hxi : x < i := by
      have := List.mem_range'_1.mp hx
      omega
    simp [Nat.ne_of_lt hxi]
  have hhigh : (List.range' (i + 1) k).map (fun j => if j = i then (1 : ℚ) else 0) =
      List.replicate k 0 := by
    apply List.eq_replicate_iff.mpr
    refine ⟨by simp, ?_⟩
    intro b hb
    obtain ⟨x, hx, rfl⟩ := List.mem_map.mp hb
    have hxi : i < x := by
      have := List.mem_range'_1.mp hx
      omega
    simp [(Nat.ne_of_lt hxi).symm]
  rw [hlow, hhigh]

/-- C4 (amended): `sampleIndex` on a one-hot strategy with the 1 at index
`i` returns `i` whenever the PRNG draw is strictly positive, or
unconditionally when `i = 0`.  (The unamended claim fails only for the
measure-zero seeds whose draw is exactly 0.) -/
theorem sampleIndex_oneHot (n i : ℕ) (hi : i < n) (t : ℕ)
    (hr : 0 < (mulberry32Next t).2 ∨ i = 0) :
    (sampleIndex (oneHot n i) t).1 = i := by
  have hr1 : (mulberry32Next t).2 < 1 := mulberry32Next_lt_one t
  have hgoal : (sampleIndex (oneHot n i) t).1 =
      sampleIndexGo (mulberry32Next t).2 0 0 (oneHot n i) := rfl
  rw [hgoal, oneHot_eq_replicate n i hi]
  rcases hr with hpos | hzero
  · rw [sampleIndexGo_zeros_one (mulberry32Next t).2 hpos (le_of_lt hr1) _ i 0]
    omega
  · subst hzero
    simp only [List.replicate, List.nil_append, sampleIndexGo]
    rw [if_pos (by linarith)]

/-- Witness for C4's amended theorem: seed 1234's first draw is
314799534/2^32 > 0, so the one-hot at index 2 of 3 samples to 2. -/
theorem sampleIndex_oneHot_witness :
    (sampleIndex (oneHot 3 2) (mulberry32Init 1234)).1 = 2 :=
  sampleIndex_oneHot 3 2 (by norm_num) (mulberry32Init 1234)
    (Or.inl (by
      have hw : mulberry32Word (mulberry32Init 1234) = (1831567047, 314799534) := by decide
      unfold mulberry32Next
      rw [hw]
      norm_num))

/-- Counterexample for C4 as stated: seed 2463401483 makes mulberry32's
first draw exactly 0 (the state advance lands on 2^32 ≡ 0), so
`sampleIndex` on the one-hot [0, 1] returns index 0, not the index 1 of
the 1 entry. -/
theorem sampleIndex_oneHot_cex :
    oneHot 2 1 = [0, 1] ∧
    (sampleIndex (oneHot 2 1) (mulberry32Init 2463401483)).1 = 0 ∧ (0 : ℕ) ≠ 1 := by
  have h01 : oneHot 2 1 = [0, 1] := by
    rw [oneHot_eq_replicate 2 1 (by norm_num)]
    rfl
  have hw : mulberry32Word (mulberry32Init 2463401483) = (0, 0) := by decide
  have hnext : mulberry32Next (mulberry32Init 2463401483) = (0, 0) := by
    unfold mulberry32Next
    rw [hw]
    norm_num
  refine ⟨h01, ?_, by decide⟩
  unfold sampleIndex
  rw [hnext, h01]
  norm_num [sampleIndexGo]

/-! ## C6: Regret Matching invariants -/

theorem getD_replicate_of_lt (n i : ℕ) (a d : ℚ) (h : i < n) :
    (List.replicate n a).getD i d = a := by
  induction n generalizing i with
  | zero => omega
  | succ m ih =>
    cases i with
    | zero => simp [List.replicate_succ]
    | succ j =>
      rw [List.replicate_succ, List.getD_cons_succ]
      exact ih j (by omega)

theorem dot_replicate (p : Vec) (c : ℚ) : dot p (List.replicate p.length c) = p.sum * c := by
  unfold dot
  induction p with
  | nil => simp
  | cons a t ih =>
    simp only [List.length_cons, List.replicate_succ, List.zipWith_cons_cons, List.sum_cons]
    rw [ih]
    ring

theorem sum_replicate_div (n : ℕ) (h : 0 < n) :
    (List.replicate n (1 / (n : ℚ))).sum = 1 := by
  rw [List.sum_replicate, nsmul_eq_mul]
  have hn : (n : ℚ) ≠ 0 := Nat.cast_ne_zero.mpr h.ne'
  field_simp

theorem initAlgState_p (acts : ℕ) (h : 0 < acts) :
    (initAlgState acts).p = List.replicate acts (1 / (acts : ℚ)) := by
  have hsum : (List.replicate acts (1 : ℚ)).sum = (acts : ℚ) := by
    rw [List.sum_replicate, nsmul_eq_mul, mul_one]
  have hpos : ¬ ((acts : ℚ) ≤ 0) := not_le.mpr (by exact_mod_cast h)
  simp only [initAlgState, normalize, hsum]
  rw [if_neg hpos, List.map_replicate, one_div]

/-- Every regret entry produced by one `stepRegret` call is `max 0 ·`, hence
non-negative. -/
theorem stepRegret_R_nonneg (st : AlgState) (opp : Vec) (M : Mat) :
    ∀ x ∈ (stepRegret st opp M).1.R, 0 ≤ x := by
  intro x hx
  simp only [stepRegret] at hx
  obtain ⟨i, _, rfl⟩ := List.mem_map.mp hx
  exact le_max_left 0 _

/-- When the expected-payoff vector is constant and the current strategy
sums to 1, one `stepRegret` call keeps the regrets at zero and falls back
to the uniform strategy. -/
theorem stepRegret_const_u (st : AlgState) (opp : Vec) (M : Mat) (c : ℚ)
    (hu : expectedPayoffVector M opp = List.replicate st.acts c)
    (hlen : st.p.length = st.acts) (hsum : st.p.sum = 1)
    (hR : st.R = List.replicate st.acts 0) :
    (stepRegret st opp M).1 =
      { st with R := List.replicate st.acts 0
                p := List.replicate st.acts (1 / (st.acts : ℚ)) } := by
  have hubar : dot st.p (expectedPayoffVector M opp) = c := by
    rw [hu, ← hlen, dot_replicate, hsum, one_mul]
  have hR' : (List.range st.acts).map
      (fun i => max 0 (st.R.getD i 0 + ((expectedPayoffVector M opp).getD i 0 - c))) =
      List.replicate st.acts 0 := by
    apply List.eq_replicate_iff.mpr
    refine ⟨by simp, ?_⟩
    intro b hb
    obtain ⟨i, hi, rfl⟩ := List.mem_map.mp hb
    have hilt : i < st.acts := List.mem_range.mp hi
    rw [hR, getD_replicate_of_lt _ _ _ _ hilt, hu, getD_replicate_of_lt _ _ _ _ hilt]
    simp
  simp only [stepRegret, hubar, hR', List.sum_replicate, smul_zero]
  rw [if_pos (by norm_num)]

/-- The regret iteration preserves zero regrets and the uniform strategy
when every input yields a constant expected-payoff vector. -/
theorem regretIter_inv (acts : ℕ) (hacts : 0 < acts) (inputs : List (Vec × Mat))
    (hconst : ∀ q ∈ inputs, ∃ c, expectedPayoffVector q.2 q.1 = List.replicate acts c) :
    (regretIter acts inputs).acts = acts ∧
    (regretIter acts inputs).R = List.replicate acts 0 ∧
    (regretIter acts inputs).p = List.replicate acts (1 / (acts : ℚ)) := by
  induction inputs using List.reverseRecOn with
  | nil =>
    refine ⟨rfl, rfl, ?_⟩
    exact initAlgState_p acts hacts
  | append_singleton l q ih =>
    have hconst' : ∀ r ∈ l, ∃ c, expectedPayoffVector r.2 r.1 = List.replicate acts c :=
      fun r hr => hconst r (by simp [hr])
    obtain ⟨hacts', hR, hp⟩ := ih hconst'
    obtain ⟨c, hc⟩ := hconst q (by simp)
    have hstep := stepRegret_const_u (regretIter acts l) q.1 q.2 c
      (by rw [hacts']; exact hc)
      (by rw [hp, hacts']; simp)
      (by rw [hp]; exact sum_replicate_div acts hacts)
      (by rw [hR, hacts'])
    have hfold : regretIter acts (l ++ [q]) = (stepRegret (regretIter acts l) q.1 q.2).1 := by
      simp [regretIter, List.foldl_append]
    rw [hfold, hstep]
    exact ⟨hacts', by rw [hacts'], by rw [hacts']⟩

/-- C6: over any run of the Regret Matching stepper, every cumulative
regret entry is non-negative; and when every step's expected payoffs are
all equal (a constant vector), the regrets stay identically zero and the
returned strategy is the uniform distribution. -/
theorem stepRegret_nonneg_uniform (acts : ℕ) (inputs : List (Vec × Mat)) :
    (∀ x ∈ (regretIter acts inputs).R, 0 ≤ x) ∧
    (0 < acts →
      (∀ q ∈ inputs, ∃ c, expectedPayoffVector q.2 q.1 = List.replicate acts c) →
      (regretIter acts inputs).R = List.replicate acts 0 ∧
      (regretIter acts inputs).p = List.replicate acts (1 / (acts : ℚ))) := by
  constructor
  · induction inputs using List.reverseRecOn with
    | nil =>
      intro x hx
      simp only [regretIter, List.foldl_nil, initAlgState] at hx
      rw [List.eq_of_mem_replicate hx]
    | append_singleton l q _ =>
      intro x hx
      have hfold : regretIter acts (l ++ [q]) = (stepRegret (regretIter acts l) q.1 q.2).1 := by
        simp [regretIter, List.foldl_append]
      rw [hfold] at hx
      exact stepRegret_R_nonneg _ _ _ x hx
  · intro hacts hconst
    exact (regretIter_inv acts hacts inputs hconst).2

/-- Witness for C6: two actions, one step whose payoff matrix is zero, so
the expected payoffs are all equal. -/
theorem stepRegret_nonneg_uniform_witness :
    (regretIter 2 [([1 / 2, 1 / 2], [[0, 0], [0, 0]])]).R = List.replicate 2 0 ∧
    (regretIter 2 [([1 / 2, 1 / 2], [[0, 0], [0, 0]])]).p = List.replicate 2 (1 / (2 : ℚ)) :=
  (stepRegret_nonneg_uniform 2 [([1 / 2, 1 / 2], [[0, 0], [0, 0]])]).2 (by norm_num)
    (by
      intro q hq
      rw [List.mem_singleton] at hq
      subst hq
      exact ⟨0, by norm_num [expectedPayoffVector, dot, List.replicate]⟩)

/-! ## C7: Fictitious Play bookkeeping -/

theorem zipWith_add_replicate_zero (v : Vec) :
    List.zipWith (· + ·) (List.replicate v.length 0) v = v := by
  induction v with
  | nil => rfl
  | cons a t ih => simp [List.replicate_succ, ih]

theorem vecSum_concat (n : ℕ) (vs : List Vec) (v : Vec) :
    vecSum n (vs ++ [v]) = List.zipWith (· + ·) (vecSum n vs) v := by
  simp [vecSum, List.foldl_append]

theorem vecSum_length (n : ℕ) (vs : List Vec) (h : ∀ v ∈ vs, v.length = n) :
    (vecSum n vs).length = n := by
  induction vs using List.reverseRecOn with
  | nil => simp [vecSum]
  | append_singleton l v ih =>
    rw [vecSum_concat, List.length_zipWith, ih (fun w hw => h w (by simp [hw])),
      h v (by simp)]
    simp

/-- The Fictitious Play iteration counts its calls in `t` and keeps the
componentwise sum of all opponent strategies seen so far in `oppHist`
(when all inputs share one length, the lazy reset never fires). -/
theorem fpIter_hist (ops : NumOps) (eta : ℚ) (acts n : ℕ)
    (inputs : List (Vec × Mat)) (hlen : ∀ q ∈ inputs, q.1.length = n) :
    (fpIter ops eta acts inputs).t = inputs.length ∧
    (fpIter ops eta acts inputs).oppHist =
      (if inputs.isEmpty then none else some (vecSum n (inputs.map (fun q => q.1)))) := by
  induction inputs using List.reverseRecOn with
  | nil => exact ⟨rfl, by simp [fpIter, initAlgState]⟩
  | append_singleton l q ih =>
    have hlen_l : ∀ r ∈ l, r.1.length = n := fun r hr => hlen r (by simp [hr])
    have hq : q.1.length = n := hlen q (by simp)
    obtain ⟨iht, ihh⟩ := ih hlen_l
    have hfold : fpIter ops eta acts (l ++ [q]) =
        (stepFP ops eta (fpIter ops eta acts l) q.1 q.2).1 := by
      simp [fpIter, List.foldl_append]
    constructor
    · rw [hfold]
      simp only [stepFP]
      rw [iht, List.length_append, List.length_singleton]
    · rw [hfold]
      by_cases hl : l = []
      · subst hl
        simp only [List.isEmpty_nil, if_pos] at ihh
        have hz : List.zipWith (· + ·) (List.replicate n 0) q.1 = q.1 := by
          rw [← hq]
          exact zipWith_add_replicate_zero q.1
        simp [stepFP, ihh, fpHist0, hq, vecSum, hz]
      · have hlne : l.isEmpty = false := by
          cases l with
          | nil => exact absurd rfl hl
          | cons a b => rfl
        rw [hlne] at ihh
        simp only [Bool.false_eq_true, if_false] at ihh
        simp only [stepFP, ihh, fpHist0]
        have hvlen : (vecSum n (l.map (fun q => q.1))).length = n := by
          apply vecSum_length
          intro v hv
          obtain ⟨r, hr, rfl⟩ := List.mem_map.mp hv
          exact hlen_l r hr
        rw [hq, if_pos hvlen]
        rw [← vecSum_concat]
        rw [show (l ++ [q]).isEmpty = false by simp]
        simp only [Bool.false_eq_true, if_false, List.map_append, List.map_cons, List.map_nil,
          Option.some.injEq]

/-- C7: for every step count `t ≥ 1`, the empirical opponent frequency `q`
computed (and stored) by the Fictitious Play stepper at step `t` equals the
arithmetic mean of the first `t` opponent strategy vectors, exactly. -/
theorem stepFP_freq_mean (ops : NumOps) (eta : ℚ) (acts n : ℕ)
    (inputs : List (Vec × Mat)) (hlen : ∀ q ∈ inputs, q.1.length = n)
    (t : ℕ) (ht1 : 1 ≤ t) (ht : t ≤ inputs.length) :
    ∃ h, (fpIter ops eta acts (inputs.take t)).oppHist = some h ∧
      (fpIter ops eta acts (inputs.take t)).t = t ∧
      fpQ h t = vecMean n ((inputs.take t).map (fun q => q.1)) := by
  have hlen' : ∀ q ∈ inputs.take t, q.1.length = n :=
    fun q hq => hlen q (List.mem_of_mem_take hq)
  obtain ⟨htt, hh⟩ := fpIter_hist ops eta acts n (inputs.take t) hlen'
  have hlen_take : (inputs.take t).length = t := by
    rw [List.length_take]
    omega
  have hne : ¬ ((inputs.take t).isEmpty = true) := by
    intro habs
    rw [List.isEmpty_iff] at habs
    rw [habs] at hlen_take
    simp at hlen_take
    omega
  rw [if_neg hne] at hh
  refine ⟨vecSum n ((inputs.take t).map (fun q => q.1)), hh, by rw [htt, hlen_take], ?_⟩
  show (vecSum n ((inputs.take t).map (fun q => q.1))).map (fun c => c / (t : ℚ)) =
    (vecSum n ((inputs.take t).map (fun q => q.1))).map
      (fun c => c / ((((inputs.take t).map (fun q => q.1)).length : ℚ)))
  rw [List.length_map, hlen_take]

/-- Witness for C7 at a concrete two-step history: the stored frequency
after step 2 is the mean of the two opponent strategies. -/
theorem stepFP_freq_mean_witness :
    ∃ h, (fpIter opsOne (1 / 2) 2
        (([([1 / 2, 1 / 2], [[0, 0], [0, 0]]), ([1, 0], [[0, 0], [0, 0]])] :
          List (Vec × Mat)).take 2)).oppHist = some h ∧
      (fpIter opsOne (1 / 2) 2
        (([([1 / 2, 1 / 2], [[0, 0], [0, 0]]), ([1, 0], [[0, 0], [0, 0]])] :
          List (Vec × Mat)).take 2)).t = 2 ∧
      fpQ h 2 = vecMean 2
        ((([([1 / 2, 1 / 2], [[0, 0], [0, 0]]), ([1, 0], [[0, 0], [0, 0]])] :
          List (Vec × Mat)).take 2).map (fun q => q.1)) :=
  stepFP_freq_mean opsOne (1 / 2) 2 2
    [([1 / 2, 1 / 2], [[0, 0], [0, 0]]), ([1, 0], [[0, 0], [0, 0]])]
    (by
      intro q hq
      simp only [List.mem_cons, List.not_mem_nil, or_false] at hq
      rcases hq with rfl | rfl <;> rfl)
    2 (by norm_num) (by simp)

/-! ## C3: trainer observation vectors -/

theorem oneHot_length (n idx : ℕ) : (oneHot n idx).length = n := by
  simp [oneHot]

theorem obsVec_eq (inputDim k : ℕ) : obsVec inputDim k = 1 :: oneHot (inputDim - 1) k := by
  unfold obsVec
  rw [List.take_of_length_le (le_of_eq (oneHot_length (inputDim - 1) k))]

theorem episodeRollout_succ (ops : NumOps) (spec : GameSpec) (polA polB : Policy)
    (inputDim n rng0 : ℕ) :
    episodeRollout ops spec polA polB inputDim (n + 1) rng0 =
      trainStep ops spec polA polB inputDim
        (episodeRollout ops spec polA polB inputDim n rng0) := by
  simp [episodeRollout, List.range_succ, List.foldl_append]

/-- One `trainStep` appends one cache per player; each player's recorded
observation is built from the opponent's last action, and the new
`lastA`/`lastB` are the actions just recorded for A/B. -/
theorem trainStep_shape (ops : NumOps) (spec : GameSpec) (polA polB : Policy)
    (inputDim : ℕ) (st : RolloutState) :
    ∃ cA cB : StepCache,
      (trainStep ops spec polA polB inputDim st).stepsA = st.stepsA ++ [cA] ∧
      (trainStep ops spec polA polB inputDim st).stepsB = st.stepsB ++ [cB] ∧
      (trainStep ops spec polA polB inputDim st).lastB = cB.action ∧
      (trainStep ops spec polA polB inputDim st).lastA = cA.action ∧
      cA.x = obsVec inputDim st.lastB ∧ cB.x = obsVec inputDim st.lastA := by
  exact ⟨_, _, rfl, rfl, rfl, rfl, rfl, rfl⟩

/-- Full rollout invariant: both cache lists have one entry per step, the
running `lastA`/`lastB` are the actions of the respective player's most
recent cache, and every recorded observation of either player is the
bias-plus-one-hot of the opponent's previous action (index 0 — the initial
value of `lastA`/`lastB` — at the first step). -/
theorem rollout_inv (ops : NumOps) (spec : GameSpec) (polA polB : Policy)
    (inputDim rng0 : ℕ) :
    ∀ stepsPerEp : ℕ,
    (episodeRollout ops spec polA polB inputDim stepsPerEp rng0).stepsA.length = stepsPerEp ∧
    (episodeRollout ops spec polA polB inputDim stepsPerEp rng0).stepsB.length = stepsPerEp ∧
    ((episodeRollout ops spec polA polB inputDim stepsPerEp rng0).lastB =
      (if stepsPerEp = 0 then 0
       else ((episodeRollout ops spec polA polB inputDim stepsPerEp rng0).stepsB.getD
         (stepsPerEp - 1) cacheDefault).action)) ∧
    ((episodeRollout ops spec polA polB inputDim stepsPerEp rng0).lastA =
      (if stepsPerEp = 0 then 0
       else ((episodeRollout ops spec polA polB inputDim stepsPerEp rng0).stepsA.getD
         (stepsPerEp - 1) cacheDefault).action)) ∧
    (∀ j < stepsPerEp,
      ((episodeRollout ops spec polA polB inputDim stepsPerEp rng0).stepsA.getD j
          cacheDefault).x =
        obsVec inputDim (if j = 0 then 0
          else ((episodeRollout ops spec polA polB inputDim stepsPerEp rng0).stepsB.getD (j - 1)
            cacheDefault).action)) ∧
    ∀ j < stepsPerEp,
      ((episodeRollout ops spec polA polB inputDim stepsPerEp rng0).stepsB.getD j
          cacheDefault).x =
        obsVec inputDim (if j = 0 then 0
          else ((episodeRollout ops spec polA polB inputDim stepsPerEp rng0).stepsA.getD (j - 1)
            cacheDefault).action) := by
  intro stepsPerEp
  induction stepsPerEp with
  | zero =>
    refine ⟨rfl, rfl, rfl, rfl, ?_, ?_⟩ <;>
      exact fun j hj => absurd hj (by omega)
  | succ m ih =>
    obtain ⟨ihA, ihB, ihLastB, ihLastA, ihObsA, ihObsB⟩ := ih
    rw [episodeRollout_succ]
    obtain ⟨cA, cB, hsA, hsB, hlB, hlA, hcAx, hcBx⟩ :=
      trainStep_shape ops spec polA polB inputDim
        (episodeRollout ops spec polA polB inputDim m rng0)
    refine ⟨?_, ?_, ?_, ?_, ?_, ?_⟩
    · rw [hsA, List.length_append, ihA, List.length_singleton]
    · rw [hsB, List.length_append, ihB, List.length_singleton]
    · rw [hlB, hsB, if_neg (Nat.succ_ne_zero m)]
      rw [Nat.succ_sub_one]
      rw [List.getD_append_right _ _ _ _ (le_of_eq ihB), ihB, Nat.sub_self,
        List.getD_cons_zero]
    · rw [hlA, hsA, if_neg (Nat.succ_ne_zero m)]
      rw [Nat.succ_sub_one]
      rw [List.getD_append_right _ _ _ _ (le_of_eq ihA), ihA, Nat.sub_self,
        List.getD_cons_zero]
    · intro j hj
      rcases Nat.lt_succ_iff_lt_or_eq.mp hj with hjm | hjm
      · have hgA : ((episodeRollout ops spec polA polB inputDim m rng0).stepsA ++
            [cA]).getD j cacheDefault =
            (episodeRollout ops spec polA polB inputDim m rng0).stepsA.getD j cacheDefault :=
          List.getD_append _ _ _ _ (by rw [ihA]; exact hjm)
        rw [hsA, hgA]
        rcases Nat.eq_zero_or_pos j with rfl | hj0
        · simpa using ihObsA 0 hjm
        · have hgB : ((episodeRollout ops spec polA polB inputDim m rng0).stepsB ++
              [cB]).getD (j - 1) cacheDefault =
              (episodeRollout ops spec polA polB inputDim m rng0).stepsB.getD (j - 1)
                cacheDefault :=
            List.getD_append _ _ _ _ (by rw [ihB]; omega)
          rw [hsB, hgB]
          exact ihObsA j hjm
      · subst hjm
        rw [hsA, List.getD_append_right _ _ _ _ (le_of_eq ihA), ihA, Nat.sub_self,
          List.getD_cons_zero, hcAx]
        rcases Nat.eq_zero_or_pos j with rfl | hj0
        · rw [ihLastB]  -- lastB after zero steps is 0
          simp
        · rw [if_neg (by omega : ¬ j = 0), hsB]
          have hgB : ((episodeRollout ops spec polA polB inputDim j rng0).stepsB ++
              [cB]).getD (j - 1) cacheDefault =
              (episodeRollout ops spec polA polB inputDim j rng0).stepsB.getD (j - 1)
                cacheDefault :=
            List.getD_append _ _ _ _ (by rw [ihB]; omega)
          rw [hgB, ihLastB, if_neg (by omega : ¬ j = 0)]
    · intro j hj
      rcases Nat.lt_succ_iff_lt_or_eq.mp hj with hjm | hjm
      · have hgB : ((episodeRollout ops spec polA polB inputDim m rng0).stepsB ++
            [cB]).getD j cacheDefault =
            (episodeRollout ops spec polA polB inputDim m rng0).stepsB.getD j cacheDefault :=
          List.getD_append _ _ _ _ (by rw [ihB]; exact hjm)
        rw [hsB, hgB]
        rcases Nat.eq_zero_or_pos j with rfl | hj0
        · simpa using ihObsB 0 hjm
        · have hgA : ((episodeRollout ops spec polA polB inputDim m rng0).stepsA ++
              [cA]).getD (j - 1) cacheDefault =
              (episodeRollout ops spec polA polB inputDim m rng0).stepsA.getD (j - 1)
                cacheDefault :=
            List.getD_append _ _ _ _ (by rw [ihA]; omega)
          rw [hsA, hgA]
          exact ihObsB j hjm
      · subst hjm
        rw [hsB, List.getD_append_right _ _ _ _ (le_of_eq ihB), ihB, Nat.sub_self,
          List.getD_cons_zero, hcBx]
        rcases Nat.eq_zero_or_pos j with rfl | hj0
        · rw [ihLastA]  -- lastA after zero steps is 0
          simp
        · rw [if_neg (by omega : ¬ j = 0), hsA]
          have hgA : ((episodeRollout ops spec polA polB inputDim j rng0).stepsA ++
              [cA]).getD (j - 1) cacheDefault =
              (episodeRollout ops spec polA polB inputDim j rng0).stepsA.getD (j - 1)
                cacheDefault :=
            List.getD_append _ _ _ _ (by rw [ihA]; omega)
          rw [hgA, ihLastA, if_neg (by omega : ¬ j = 0)]

/-- C3 (amended): in `trainSelfPlay`'s rollout, each player's observation
at step `j` is `[1, one-hot(the opponent's action at step j-1)]` — B's
previous action for player A, A's previous action for player B; at the
first step of an episode the "previous action" is the initial value 0, so
for both players the one-hot part is the first basis vector (one-hot of
action index 0), not the zero vector. -/
theorem trainSelfPlay_observation (ops : NumOps) (spec : GameSpec) (polA polB : Policy)
    (inputDim stepsPerEp rng0 : ℕ) :
    (∀ j < (episodeRollout ops spec polA polB inputDim stepsPerEp rng0).stepsA.length,
      ((episodeRollout ops spec polA polB inputDim stepsPerEp rng0).stepsA.getD j
          cacheDefault).x =
        obsVec inputDim (if j = 0 then 0
          else ((episodeRollout ops spec polA polB inputDim stepsPerEp rng0).stepsB.getD (j - 1)
            cacheDefault).action)) ∧
    (∀ j < (episodeRollout ops spec polA polB inputDim stepsPerEp rng0).stepsB.length,
      ((episodeRollout ops spec polA polB inputDim stepsPerEp rng0).stepsB.getD j
          cacheDefault).x =
        obsVec inputDim (if j = 0 then 0
          else ((episodeRollout ops spec polA polB inputDim stepsPerEp rng0).stepsA.getD (j - 1)
            cacheDefault).action)) ∧
    (0 < stepsPerEp →
      ((episodeRollout ops spec polA polB inputDim stepsPerEp rng0).stepsA.getD 0
          cacheDefault).x = 1 :: oneHot (inputDim - 1) 0 ∧
      ((episodeRollout ops spec polA polB inputDim stepsPerEp rng0).stepsB.getD 0
          cacheDefault).x = 1 :: oneHot (inputDim - 1) 0) := by
  obtain ⟨ihA, ihB, _, _, ihObsA, ihObsB⟩ :=
    rollout_inv ops spec polA polB inputDim rng0 stepsPerEp
  refine ⟨?_, ?_, ?_⟩
  · intro j hj
    exact ihObsA j (by rw [← ihA]; exact hj)
  · intro j hj
    exact ihObsB j (by rw [← ihB]; exact hj)
  · intro hpos
    constructor
    · have h0 := ihObsA 0 hpos
      simpa [obsVec_eq] using h0
    · have h0 := ihObsB 0 hpos
      simpa [obsVec_eq] using h0

/-- Witness for C3's amended theorem at a concrete configuration: both
players' first-step observations. -/
theorem trainSelfPlay_observation_witness :
    ((episodeRollout opsOne (GAMES .rps) polZero polZero 4 1 (mulberry32Init 1234)).stepsA.getD 0
        cacheDefault).x = 1 :: oneHot 3 0 ∧
    ((episodeRollout opsOne (GAMES .rps) polZero polZero 4 1 (mulberry32Init 1234)).stepsB.getD 0
        cacheDefault).x = 1 :: oneHot 3 0 :=
  (trainSelfPlay_observation opsOne (GAMES .rps) polZero polZero 4 1
    (mulberry32Init 1234)).2.2 (by norm_num)

/-- Counterexample for C3 as stated: at the first step of an episode the
one-hot part of A's observation is [1, 0, 0] (one-hot of action 0, because
`lastB` is initialized to 0), not the zero vector — the full observation is
[1, 1, 0, 0] rather than [1, 0, 0, 0]. -/
theorem trainSelfPlay_observation_cex :
    ((episodeRollout opsOne (GAMES .rps) polZero polZero 4 1 (mulberry32Init 1234)).stepsA.getD 0
        cacheDefault).x = [1, 1, 0, 0] ∧
    ([1, 1, 0, 0] : Vec) ≠ 1 :: List.replicate 3 (0 : ℚ) := by
  constructor
  · rw [episodeRollout_succ]
    obtain ⟨cA, cB, hsA, _, _, _, hcAx, _⟩ :=
      trainStep_shape opsOne (GAMES .rps) polZero polZero 4
        (episodeRollout opsOne (GAMES .rps) polZero polZero 4 0 (mulberry32Init 1234))
    rw [hsA]
    have h0 : (episodeRollout opsOne (GAMES .rps) polZero polZero 4 0
        (mulberry32Init 1234)).stepsA = [] := rfl
    rw [h0, List.nil_append, List.getD_cons_zero, hcAx]
    have hlast : (episodeRollout opsOne (GAMES .rps) polZero polZero 4 0
        (mulberry32Init 1234)).lastB = 0 := rfl
    rw [hlast, obsVec_eq, oneHot_eq_replicate 3 0 (by norm_num)]
    rfl
  · intro habs
    have h2 := congrArg (fun l => l.getD 1 (5 : ℚ)) habs
    norm_num [List.replicate] at h2

/-! ## C8: distributed-training log aggregation -/

/-- The aggregation fold accumulates exactly the sums of the per-worker
reads (`?? 0` for the reward fields) and the sum/count of the non-null
`winA` values. -/
theorem aggFold_eq (idx : ℕ) (runs : List (List TrainLogEntry)) (acc : AggAcc) :
    runs.foldl (aggStep idx) acc =
      { sumA := acc.sumA +
          (runs.map (fun r => ((r.get? idx).map (fun l => l.avgRewardA)).getD 0)).sum
        sumB := acc.sumB +
          (runs.map (fun r => ((r.get? idx).map (fun l => l.avgRewardB)).getD 0)).sum
        sumWin := acc.sumWin +
          (runs.filterMap (fun r => (r.get? idx).bind (fun l => l.winA))).sum
        countWin := acc.countWin +
          (runs.filterMap (fun r => (r.get? idx).bind (fun l => l.winA))).length } := by
  induction runs generalizing acc with
  | nil => simp
  | cons r rest ih =>
    rw [List.foldl_cons, ih]
    simp only [List.map_cons, List.sum_cons, List.filterMap_cons]
    cases hw : (r.get? idx).bind (fun l => l.winA) with
    | none =>
      simp only [aggStep, hw]
      simp only [AggAcc.mk.injEq]
      refine ⟨?_, ?_, ?_, ?_⟩ <;> first
        | trivial
        | exact add_assoc _ _ _
        | rw [Nat.add_assoc, Nat.add_comm 1]
    | some w =>
      simp only [aggStep, hw, List.sum_cons, List.length_cons]
      simp only [AggAcc.mk.injEq]
      refine ⟨?_, ?_, ?_, ?_⟩ <;> first
        | trivial
        | exact add_assoc _ _ _
        | rw [Nat.add_assoc, Nat.add_comm 1]

/-- C8: when every one of the `workers` workers produced a log of length
`E`, the aggregated entry at index `i < E` carries episode number `i+1`,
the arithmetic mean over the workers of `avgRewardA` and `avgRewardB` at
that index, and the mean of `winA` over exactly the workers whose entry
reported a non-null `winA` (or null when none did). -/
theorem aggregateLogs_spec (workers cfgE E : ℕ) (runs : List (List TrainLogEntry))
    (hw : runs.length = workers) (hw0 : 0 < workers)
    (hE : ∀ r ∈ runs, r.length = E) (i : ℕ) (hi : i < E) :
    (aggregateLogs workers cfgE runs).get? i = some
      { ep := i + 1
        avgRewardA :=
          (runs.map (fun r => (r.getD i logEntryDefault).avgRewardA)).sum / (workers : ℚ)
        avgRewardB :=
          (runs.map (fun r => (r.getD i logEntryDefault).avgRewardB)).sum / (workers : ℚ)
        winA :=
          if (runs.filterMap (fun r => (r.getD i logEntryDefault).winA)).isEmpty then none
          else some ((runs.filterMap (fun r => (r.getD i logEntryDefault).winA)).sum /
            (((runs.filterMap (fun r => (r.getD i logEntryDefault).winA)).length : ℚ))) } := by
  have hget : ∀ r ∈ runs, r.get? i = some (r.getD i logEntryDefault) := by
    intro r hr
    have hlt : i < r.length := by rw [hE r hr]; exact hi
    cases hq : r.get? i with
    | none =>
      rw [List.get?_eq_none] at hq
      omega
    | some v =>
      rw [List.getD_eq_get?, hq]
      rfl
  have hne : runs ≠ [] := by
    intro h
    rw [h] at hw
    simp at hw
    omega
  obtain ⟨r0, rest, rfl⟩ := List.exists_cons_of_ne_nil hne
  have hr0 : r0.length = E := hE r0 (by simp)
  have hfl : aggregateLogs workers cfgE (r0 :: rest) =
      (List.range E).map (fun idx => aggEntry workers idx (r0 :: rest)) := by
    unfold aggregateLogs
    simp only [List.head?_cons]
    rw [hr0, if_neg (by omega)]
  rw [hfl, List.get?_map, List.get?_range hi, Option.map_some']
  have hmapA : ((r0 :: rest).map (fun r => ((r.get? i).map (fun l => l.avgRewardA)).getD 0)) =
      ((r0 :: rest).map (fun r => (r.getD i logEntryDefault).avgRewardA)) := by
    apply List.map_congr_left
    intro r hr
    rw [hget r hr, Option.map_some']
    rfl
  have hmapB : ((r0 :: rest).map (fun r => ((r.get? i).map (fun l => l.avgRewardB)).getD 0)) =
      ((r0 :: rest).map (fun r => (r.getD i logEntryDefault).avgRewardB)) := by
    apply List.map_congr_left
    intro r hr
    rw [hget r hr, Option.map_some']
    rfl
  have hfm : ((r0 :: rest).filterMap (fun r => (r.get? i).bind (fun l => l.winA))) =
      ((r0 :: rest).filterMap (fun r => (r.getD i logEntryDefault).winA)) := by
    apply List.filterMap_congr
    intro r hr
    rw [hget r hr]
    rfl
  unfold aggEntry
  rw [aggFold_eq]
  simp only [zero_add, hmapA, hmapB, hfm, TrainLogEntry.mk.injEq, Option.some.injEq]
  refine ⟨trivial, trivial, trivial, ?_⟩
  cases hL : (r0 :: rest).filterMap (fun r => (r.getD i logEntryDefault).winA) with
  | nil => simp
  | cons a t => simp

/-- Witness for C8: two workers, logs of length 1, one of which reports a
`winA` value. -/
theorem aggregateLogs_spec_witness :
    (aggregateLogs 2 5 aggRunsW).get? 0 = some
      { ep := 0 + 1
        avgRewardA :=
          (aggRunsW.map (fun r => (r.getD 0 logEntryDefault).avgRewardA)).sum / ((2 : ℕ) : ℚ)
        avgRewardB :=
          (aggRunsW.map (fun r => (r.getD 0 logEntryDefault).avgRewardB)).sum / ((2 : ℕ) : ℚ)
        winA :=
          if (aggRunsW.filterMap (fun r => (r.getD 0 logEntryDefault).winA)).isEmpty then none
          else some ((aggRunsW.filterMap (fun r => (r.getD 0 logEntryDefault).winA)).sum /
            (((aggRunsW.filterMap (fun r => (r.getD 0 logEntryDefault).winA)).length : ℕ) : ℚ)) } :=
  aggregateLogs_spec 2 5 1 aggRunsW rfl (by norm_num)
    (by
      intro r hr
      simp only [aggRunsW, List.mem_cons, List.not_mem_nil, or_false] at hr
      rcases hr with rfl | rfl <;> rfl)
    0 (by norm_num)

/-! ## C9: Hedge weights stay strictly positive -/

theorem zipWith_pos (g : ℚ → ℚ → ℚ) (hg : ∀ a b, 0 < a → 0 < g a b) :
    ∀ (w u : Vec), (∀ x ∈ w, 0 < x) → ∀ y ∈ List.zipWith g w u, 0 < y := by
  intro w
  induction w with
  | nil =>
    intro u _ y hy
    simp at hy
  | cons a t ih =>
    intro u hw y hy
    cases u with
    | nil => simp at hy
    | cons b s =>
      rw [List.zipWith_cons_cons] at hy
      rcases List.mem_cons.mp hy with rfl | hy'
      · exact hg a b (hw a (by simp))
      · exact ih s (fun x hx => hw x (by simp [hx])) y hy'

/-- `normalize` on a nonempty all-positive vector takes the division
branch (sum > 0, no uniform fallback) and returns all-positive entries. -/
theorem normalize_pos (v : Vec) (hv : ∀ x ∈ v, 0 < x) (hne : v ≠ []) :
    0 < v.sum ∧ normalize v = v.map (fun x => x / v.sum) ∧
      ∀ x ∈ normalize v, 0 < x := by
  have hs : 0 < v.sum := List.sum_pos v hv hne
  have hform : normalize v = v.map (fun x => x / v.sum) := by
    unfold normalize
    simp [not_le.mpr hs]
  refine ⟨hs, hform, ?_⟩
  intro x hx
  rw [hform] at hx
  obtain ⟨y, hy, rfl⟩ := List.mem_map.mp hx
  exact div_pos (hv y hy) hs

theorem normalize_replicate_one (k : ℕ) (h : 0 < k) :
    normalize (List.replicate k 1) = List.replicate k (1 / (k : ℚ)) := by
  have hsum : (List.replicate k (1 : ℚ)).sum = (k : ℚ) := by
    rw [List.sum_replicate, nsmul_eq_mul, mul_one]
  have hpos : ¬ ((k : ℚ) ≤ 0) := not_le.mpr (by exact_mod_cast h)
  simp only [normalize, hsum]
  rw [if_neg hpos, List.map_replicate, one_div]

/-- The Hedge iteration keeps its weight vector at full length with every
entry strictly positive, as long as the abstract exponential is positive
and every payoff matrix has `acts` rows. -/
theorem hedgeIter_w (ops : NumOps) (hexp : ∀ x, 0 < ops.expq x) (eta : ℚ) (acts : ℕ)
    (inputs : List (Vec × Mat)) (hM : ∀ q ∈ inputs, q.2.length = acts) :
    (hedgeIter ops eta acts inputs).w.length = acts ∧
    ∀ x ∈ (hedgeIter ops eta acts inputs).w, 0 < x := by
  induction inputs using List.reverseRecOn with
  | nil =>
    constructor
    · simp [hedgeIter, initAlgState]
    · intro x hx
      simp only [hedgeIter, List.foldl_nil, initAlgState] at hx
      rw [List.eq_of_mem_replicate hx]
      norm_num
  | append_singleton l q ih =>
    obtain ⟨ihlen, ihpos⟩ := ih (fun r hr => hM r (by simp [hr]))
    have hq : q.2.length = acts := hM q (by simp)
    have hfold : hedgeIter ops eta acts (l ++ [q]) =
        (stepHedge ops eta (hedgeIter ops eta acts l) q.1 q.2).1 := by
      simp [hedgeIter, List.foldl_append]
    have hw : (stepHedge ops eta (hedgeIter ops eta acts l) q.1 q.2).1.w =
        List.zipWith
          (fun wi ui => wi * ops.expq (eta / hedgeScale (expectedPayoffVector q.2 q.1) * ui))
          (hedgeIter ops eta acts l).w (expectedPayoffVector q.2 q.1) := rfl
    have hulen : (expectedPayoffVector q.2 q.1).length = acts := by
      rw [expectedPayoffVector, List.length_map, hq]
    rw [hfold, hw]
    constructor
    · rw [List.length_zipWith, ihlen, hulen]
      simp
    · exact zipWith_pos _ (fun a b ha => mul_pos ha (hexp _)) _ _ ihpos

theorem GAMES_actsA_len (game : GameId) : (GAMES game).actsA.length = (GAMES game).A.length := by
  cases game <;> rfl

theorem GAMES_actsB_len (game : GameId) : (GAMES game).actsB.length = (GAMES game).B.length := by
  cases game <;> rfl

theorem GAMES_A_pos (game : GameId) : 0 < (GAMES game).A.length := by
  cases game <;> decide

theorem GAMES_B_pos (game : GameId) : 0 < (GAMES game).B.length := by
  cases game <;> decide

/-- The arena's `stepOnce` invariant: both weight vectors keep the game's
dimensions and stay strictly positive, and both strategies stay strictly
positive. -/
theorem arenaIter_inv (ops : NumOps) (hexp : ∀ x, 0 < ops.expq x) (game : GameId)
    (lr : ℚ) (seed : ℕ) : ∀ n : ℕ,
    (arenaIter ops game lr seed n).wA.length = (GAMES game).A.length ∧
    (∀ x ∈ (arenaIter ops game lr seed n).wA, 0 < x) ∧
    (arenaIter ops game lr seed n).wB.length = (GAMES game).B.length ∧
    (∀ x ∈ (arenaIter ops game lr seed n).wB, 0 < x) ∧
    (∀ x ∈ (arenaIter ops game lr seed n).pA, 0 < x) ∧
    (∀ x ∈ (arenaIter ops game lr seed n).pB, 0 < x) := by
  intro n
  induction n with
  | zero =>
    have hApos := GAMES_A_pos game
    have hBpos := GAMES_B_pos game
    have hA : (arenaIter ops game lr seed 0).wA = List.replicate (GAMES game).actsA.length 1 :=
      rfl
    have hB : (arenaIter ops game lr seed 0).wB = List.replicate (GAMES game).actsB.length 1 :=
      rfl
    have hpA : (arenaIter ops game lr seed 0).pA =
        normalize (List.replicate (GAMES game).actsA.length 1) := rfl
    have hpB : (arenaIter ops game lr seed 0).pB =
        normalize (List.replicate (GAMES game).actsB.length 1) := rfl
    refine ⟨?_, ?_, ?_, ?_, ?_, ?_⟩
    · rw [hA, List.length_replicate, GAMES_actsA_len]
    · intro x hx
      rw [hA] at hx
      rw [List.eq_of_mem_replicate hx]
      norm_num
    · rw [hB, List.length_replicate, GAMES_actsB_len]
    · intro x hx
      rw [hB] at hx
      rw [List.eq_of_mem_replicate hx]
      norm_num
    · intro x hx
      rw [hpA, normalize_replicate_one _ (by rw [GAMES_actsA_len]; exact hApos)] at hx
      rw [List.eq_of_mem_replicate hx]
      rw [GAMES_actsA_len]
      positivity
    · intro x hx
      rw [hpB, normalize_replicate_one _ (by rw [GAMES_actsB_len]; exact hBpos)] at hx
      rw [List.eq_of_mem_replicate hx]
      rw [GAMES_actsB_len]
      positivity
  | succ m ih =>
    obtain ⟨ihAlen, ihApos, ihBlen, ihBpos, _, _⟩ := ih
    have hstep : arenaIter ops game lr seed (m + 1) =
        stepOnce ops game lr (arenaIter ops game lr seed m) := rfl
    have huAlen : (expectedPayoffVector (GAMES game).A
        (arenaIter ops game lr seed m).pB).length = (GAMES game).A.length := by
      rw [expectedPayoffVector, List.length_map]
    have huBlen : (expectedPayoffVector (GAMES game).B
        (arenaIter ops game lr seed m).pA).length = (GAMES game).B.length := by
      rw [expectedPayoffVector, List.length_map]
    have hwA : (stepOnce ops game lr (arenaIter ops game lr seed m)).wA =
        List.zipWith
          (fun w u => w * ops.expq (lr / hedgeScale (expectedPayoffVector (GAMES game).A
            (arenaIter ops game lr seed m).pB) * u))
          (arenaIter ops game lr seed m).wA
          (expectedPayoffVector (GAMES game).A (arenaIter ops game lr seed m).pB) := rfl
    have hwB : (stepOnce ops game lr (arenaIter ops game lr seed m)).wB =
        List.zipWith
          (fun w u => w * ops.expq (lr / hedgeScale (expectedPayoffVector (GAMES game).B
            (arenaIter ops game lr seed m).pA) * u))
          (arenaIter ops game lr seed m).wB
          (expectedPayoffVector (GAMES game).B (arenaIter ops game lr seed m).pA) := rfl
    have hpA : (stepOnce ops game lr (arenaIter ops game lr seed m)).pA =
        normalize (stepOnce ops game lr (arenaIter ops game lr seed m)).wA := rfl
    have hpB : (stepOnce ops game lr (arenaIter ops game lr seed m)).pB =
        normalize (stepOnce ops game lr (arenaIter ops game lr seed m)).wB := rfl
    have hlenA : (stepOnce ops game lr (arenaIter ops game lr seed m)).wA.length =
        (GAMES game).A.length := by
      rw [hwA, List.length_zipWith, ihAlen, huAlen]
      simp
    have hlenB : (stepOnce ops game lr (arenaIter ops game lr seed m)).wB.length =
        (GAMES game).B.length := by
      rw [hwB, List.length_zipWith, ihBlen, huBlen]
      simp
    have hposA : ∀ x ∈ (stepOnce ops game lr (arenaIter ops game lr seed m)).wA, 0 < x := by
      rw [hwA]
      exact zipWith_pos _ (fun a b ha => mul_pos ha (hexp _)) _ _ ihApos
    have hposB : ∀ x ∈ (stepOnce ops game lr (arenaIter ops game lr seed m)).wB, 0 < x := by
      rw [hwB]
      exact zipWith_pos _ (fun a b ha => mul_pos ha (hexp _)) _ _ ihBpos
    have hneA : (stepOnce ops game lr (arenaIter ops game lr seed m)).wA ≠ [] :=
      List.ne_nil_of_length_pos (by rw [hlenA]; exact GAMES_A_pos game)
    have hneB : (stepOnce ops game lr (arenaIter ops game lr seed m)).wB ≠ [] :=
      List.ne_nil_of_length_pos (by rw [hlenB]; exact GAMES_B_pos game)
    rw [hstep]
    refine ⟨hlenA, hposA, hlenB, hposB, ?_, ?_⟩
    · rw [hpA]
      exact (normalize_pos _ hposA hneA).2.2
    · rw [hpB]
      exact (normalize_pos _ hposB hneB).2.2

/-- C9: Hedge weights start at 1 and are only ever multiplied by (positive)
exponential factors, so in both the evaluator's `stepHedge` and the arena's
`stepOnce` every weight entry stays strictly positive after any number of
steps, the weight sum is strictly positive, `normalize` takes its division
branch (the uniform fallback is never taken on a Hedge weight vector), and
every entry of the returned strategies is strictly positive. -/
theorem hedge_weights_pos (ops : NumOps) (hexp : ∀ x, 0 < ops.expq x) (eta lr : ℚ)
    (acts : ℕ) (hacts : 0 < acts) (inputs : List (Vec × Mat))
    (hM : ∀ q ∈ inputs, q.2.length = acts) (game : GameId) (seed n : ℕ) :
    ((∀ x ∈ (hedgeIter ops eta acts inputs).w, 0 < x) ∧
      0 < (hedgeIter ops eta acts inputs).w.sum ∧
      normalize (hedgeIter ops eta acts inputs).w =
        (hedgeIter ops eta acts inputs).w.map
          (fun x => x / (hedgeIter ops eta acts inputs).w.sum) ∧
      ∀ x ∈ normalize (hedgeIter ops eta acts inputs).w, 0 < x) ∧
    ((∀ x ∈ (arenaIter ops game lr seed n).wA, 0 < x) ∧
      0 < (arenaIter ops game lr seed n).wA.sum ∧
      (∀ x ∈ (arenaIter ops game lr seed n).wB, 0 < x) ∧
      0 < (arenaIter ops game lr seed n).wB.sum ∧
      (∀ x ∈ (arenaIter ops game lr seed n).pA, 0 < x) ∧
      (∀ x ∈ (arenaIter ops game lr seed n).pB, 0 < x)) := by
  obtain ⟨hlen, hpos⟩ := hedgeIter_w ops hexp eta acts inputs hM
  have hne : (hedgeIter ops eta acts inputs).w ≠ [] :=
    List.ne_nil_of_length_pos (by rw [hlen]; exact hacts)
  obtain ⟨hs, hform, hnorm⟩ := normalize_pos _ hpos hne
  obtain ⟨hAlen, hApos, hBlen, hBpos, hpA, hpB⟩ := arenaIter_inv ops hexp game lr seed n
  refine ⟨⟨hpos, hs, hform, hnorm⟩, hApos, ?_, hBpos, ?_, hpA, hpB⟩
  · exact List.sum_pos _ hApos
      (List.ne_nil_of_length_pos (by rw [hAlen]; exact GAMES_A_pos game))
  · exact List.sum_pos _ hBpos
      (List.ne_nil_of_length_pos (by rw [hBlen]; exact GAMES_B_pos game))

/-- Witness for C9 at a concrete configuration (constant-one exponential,
which is strictly positive). -/
theorem hedge_weights_pos_witness :
    ((∀ x ∈ (hedgeIter opsOne (1 / 2) 2 [([1, 0], [[1, 0], [0, 1]])]).w, 0 < x) ∧
      0 < (hedgeIter opsOne (1 / 2) 2 [([1, 0], [[1, 0], [0, 1]])]).w.sum ∧
      normalize (hedgeIter opsOne (1 / 2) 2 [([1, 0], [[1, 0], [0, 1]])]).w =
        (hedgeIter opsOne (1 / 2) 2 [([1, 0], [[1, 0], [0, 1]])]).w.map
          (fun x => x / (hedgeIter opsOne (1 / 2) 2 [([1, 0], [[1, 0], [0, 1]])]).w.sum) ∧
      ∀ x ∈ normalize (hedgeIter opsOne (1 / 2) 2 [([1, 0], [[1, 0], [0, 1]])]).w, 0 < x) ∧
    ((∀ x ∈ (arenaIter opsOne .rps (1 / 2) 1234 1).wA, 0 < x) ∧
      0 < (arenaIter opsOne .rps (1 / 2) 1234 1).wA.sum ∧
      (∀ x ∈ (arenaIter opsOne .rps (1 / 2) 1234 1).wB, 0 < x) ∧
      0 < (arenaIter opsOne .rps (1 / 2) 1234 1).wB.sum ∧
      (∀ x ∈ (arenaIter opsOne .rps (1 / 2) 1234 1).pA, 0 < x) ∧
      (∀ x ∈ (arenaIter opsOne .rps (1 / 2) 1234 1).pB, 0 < x)) :=
  hedge_weights_pos opsOne (fun _ => one_pos) (1 / 2) (1 / 2) 2 (by norm_num)
    [([1, 0], [[1, 0], [0, 1]])]
    (by
      intro q hq
      rw [List.mem_singleton] at hq
      subst hq
      rfl)
    .rps 1234 1

end SIL
